import Mathlib

/-!
# WCDB: TimedQueue, BusyRetryConfig and DatabasePool

A shallow embedding of three pieces of the WCDB core:

* `TimedQueue` (`apple/objc/utility/TimedQueue.hpp`),
* `BusyRetryConfig` (`apple/objc/core/config/BusyRetryConfig.cpp`),
* `DatabasePool::getOrCreate` (`objc/source/core/DatabasePool.hpp`).

Conventions of the embedding.

* A section of code that runs with the component's mutex held is one atomic function on the
  component's state.  Mutexes and condition variables are not state: a call of `notify_one` or
  `notify_all`, and the fact that a thread blocked on the condition variable, are reported in
  the result of the function that does it.
* What the code reads from its environment is an argument of the function that reads it: the
  value of `isExiting()`, the reading of `SteadyClock::now()`, the status a timed wait returns.
* Files that are not part of the translated sources (`OrderedUniqueList.hpp`, `Time.hpp`,
  `Exiting.hpp`, `CoreConst.h`, `BusyRetryConfig.hpp`, `Lock.hpp`, `Path.hpp`,
  `DatabasePool.cpp`) are modelled from the written description of the system, or taken as
  parameters, and each such definition says so.
* The type `double` is a type parameter `D` with the operations the code uses; the conversion
  `(long long) (delay * 1E9)` is made by the caller of the model.
-/

namespace WCDB

/-! ## SteadyClock -/

/-- Modelled from the spec: `SteadyClock` (declared in `Time.hpp`) is the monotonic timestamp of
the data model, a `std::chrono` time point counting nanoseconds in a signed 64-bit tick count.
A time point is the integer number of ticks. -/
abbrev SteadyClock := Int

/-- Two's complement reduction of an integer to the signed 64-bit range. -/
def SteadyClock.wrap (t : Int) : Int := (t + 2 ^ 63) % 2 ^ 64 - 2 ^ 63

/-- Modelled from the spec: `SteadyClock::max()`, the largest representable time point. -/
def SteadyClock.max : SteadyClock := 2 ^ 63 - 1

/-- Modelled from the spec: `timePoint + std::chrono::nanoseconds(d)` on 64-bit tick counts. -/
def SteadyClock.plus (t : SteadyClock) (d : Int) : SteadyClock := SteadyClock.wrap (t + d)

/-! ## OrderedUniqueList -/

/-- Modelled from the spec: an entry `{ order, key, value }` of the ordered set that
`OrderedUniqueList<Key, Info, SteadyClock>` keeps. -/
structure Element (Key Info : Type) where
  order : SteadyClock
  key : Key
  value : Info
deriving DecidableEq, Repr

/-- Modelled from the spec: the ordering of entries, "primarily by `order`, secondarily by key
to break ties deterministically". -/
def Element.precedes {Key Info : Type} [LT Key] (a b : Element Key Info) : Prop :=
  a.order < b.order ∨ (a.order = b.order ∧ a.key < b.key)

instance Element.decidablePrecedes {Key Info : Type} [LinearOrder Key]
    (a b : Element Key Info) : Decidable (a.precedes b) :=
  inferInstanceAs (Decidable (a.order < b.order ∨ (a.order = b.order ∧ a.key < b.key)))

/-- Modelled from the spec: `OrderedUniqueList<Key, Info, SteadyClock>` (declared in
`OrderedUniqueList.hpp`), "an ordered associative structure keyed by `(expiryTime, Key)`
supporting insert, erase-by-key, find-by-key, and smallest expiry peek".  `elements` is the
sequence `elements()` iterates, `begin()` being its head. -/
structure OrderedUniqueList (Key Info : Type) where
  elements : List (Element Key Info)
deriving DecidableEq, Repr

namespace OrderedUniqueList

variable {Key Info : Type}

/-- Modelled from the spec: `clear()`. -/
def clear (_l : OrderedUniqueList Key Info) : OrderedUniqueList Key Info := ⟨[]⟩

/-- Modelled from the spec: `erase(key)`, "erases the entry for `key` if present; no error if
absent". -/
def erase [DecidableEq Key] (l : OrderedUniqueList Key Info) (key : Key) :
    OrderedUniqueList Key Info :=
  ⟨l.elements.filter (fun e => decide (e.key ≠ key))⟩

/-- Modelled from the spec: `find(key)`, a pointer to the value recorded for `key`, null
(`none`) when the key is absent. -/
def find [DecidableEq Key] (l : OrderedUniqueList Key Info) (key : Key) : Option Info :=
  (l.elements.find? (fun e => decide (e.key = key))).map (fun e => e.value)

/-- Places an entry in front of the first entry it precedes. -/
def place [LinearOrder Key] (e : Element Key Info) :
    List (Element Key Info) → List (Element Key Info)
  | [] => [e]
  | x :: xs => if e.precedes x then e :: x :: xs else x :: place e xs

/-- Modelled from the spec: `insert(order, key, value)`; "the old entry is removed before the
new one is added, even if its timestamp is earlier". -/
def insert [LinearOrder Key] (l : OrderedUniqueList Key Info) (order : SteadyClock) (key : Key)
    (value : Info) : OrderedUniqueList Key Info :=
  ⟨place ⟨order, key, value⟩ (l.erase key).elements⟩

/-- Modelled from the spec: the invariant of the ordered set, "keys are unique across the set;
ordering is primarily by `order`, secondarily by key". -/
def WellFormed [LT Key] (l : OrderedUniqueList Key Info) : Prop :=
  l.elements.Pairwise (fun a b => a.precedes b) ∧ (l.elements.map (fun e => e.key)).Nodup

instance decidableWellFormed [LinearOrder Key] (l : OrderedUniqueList Key Info) :
    Decidable l.WellFormed :=
  inferInstanceAs (Decidable
    (l.elements.Pairwise (fun (a b : Element Key Info) => a.precedes b) ∧
      (l.elements.map (fun (e : Element Key Info) => e.key)).Nodup))

end OrderedUniqueList

/-! ## TimedQueue -/

/-- Modelled from the spec: one evaluation of `isExiting()` (declared in `Exiting.hpp`), the
process-wide exiting signal; the value read is an argument of each operation. -/
abbrev ExitingReading := Bool

/-- The fields of `TimedQueue<Key, Info>` that the mutex protects: `m_list` and `m_stop`. -/
structure TimedQueue (Key Info : Type) where
  m_list : OrderedUniqueList Key Info
  m_stop : Bool
deriving DecidableEq, Repr

namespace TimedQueue

variable {Key Info : Type}

/-- The constructor `TimedQueue()`: an empty list, `m_stop(false)`. -/
def init : TimedQueue Key Info := ⟨⟨[]⟩, false⟩

/-- The function `stop()`: clears the list and sets `m_stop` under the lock, then calls
`m_cond.notify_one()`.  The second component tells that the condition variable was signalled. -/
def stop (q : TimedQueue Key Info) : TimedQueue Key Info × Bool :=
  (⟨q.m_list.clear, true⟩, true)

/-- The function `queue(key, delay, info, reQueue)`.  `exiting` is the value of `isExiting()`,
`now` the reading of `SteadyClock::now()`, and `delay` the nanosecond count
`(long long) (delay * 1E9)`.  The second component tells that the condition variable was
signalled. -/
def queue [LinearOrder Key] (q : TimedQueue Key Info) (exiting : ExitingReading)
    (now : SteadyClock) (key : Key) (delay : Int) (info : Info) (reQueue : Bool) :
    TimedQueue Key Info × Bool :=
  if exiting then q.stop
  else if q.m_stop then (q, false)
  else if !reQueue && (q.m_list.find key).isSome then (q, false)
  else
    let expired := SteadyClock.plus now delay
    let shortest :=
      match q.m_list.elements with
      | [] => SteadyClock.max
      | e :: _ => e.order
    let m_list := q.m_list.insert expired key info
    let notify :=
      match m_list.elements with
      | [] => false
      | e :: _ => decide (e.order < shortest)
    (⟨m_list, q.m_stop⟩, notify)

/-- The function `remove(key)`; `exiting` is the value of `isExiting()` read after the locked
block.  The second component tells that the condition variable was signalled. -/
def remove [DecidableEq Key] (q : TimedQueue Key Info) (exiting : ExitingReading) (key : Key) :
    TimedQueue Key Info × Bool :=
  if q.m_stop then (q, false)
  else
    let q1 : TimedQueue Key Info := ⟨q.m_list.erase key, q.m_stop⟩
    if exiting then q1.stop else (q1, false)

/-- Modelled from the spec: the process-wide exiting signal (declared in `Exiting.hpp`) as one
iteration of `loop` sees it.  The iteration evaluates `isExiting()` at up to four places,
numbered 0 (the `while` condition), 1 (the emptiness test), 2 (the not-yet-due test) and 3
(just before the callback).  A process that is shutting down stays so, hence the signal is a
latch: it reads true from place `raisedAt` on (`raisedAt ≥ 4`: not raised in this iteration). -/
structure ExitingSignal where
  raisedAt : Nat
deriving DecidableEq, Repr

/-- The value `isExiting()` returns at place `read` of the iteration. -/
def ExitingSignal.isExiting (sig : ExitingSignal) (read : Nat) : ExitingReading :=
  decide (sig.raisedAt ≤ read)

/-- What one pass through the body of the `while` of `loop` does, up to the point where the
lock is released. -/
inductive LoopStep (Key Info : Type) where
  /-- The `while` condition is false, or `m_stop` makes the loop `break`. -/
  | exit : LoopStep Key Info
  /-- Blocks in `m_cond.wait(lockGuard)`, then `continue`. -/
  | wait : LoopStep Key Info
  /-- Blocks in `m_cond.wait_for(lockGuard, shortest->order - now)`, then `continue`. -/
  | waitFor (duration : Int) : LoopStep Key Info
  /-- Unlocks and invokes `onElementExpired(key, info)`. -/
  | callback (key : Key) (info : Info) : LoopStep Key Info
  /-- Reaches the callback while exiting: `erase` stays false and nothing is invoked. -/
  | skipped : LoopStep Key Info
  /-- Dereferences `begin()` of an empty list. -/
  | undefined : LoopStep Key Info
deriving DecidableEq, Repr

/-- The locked first half of one iteration of `loop`: from the `while` condition to the call of
the callback.  `now` is the reading of `SteadyClock::now()`. -/
def loopCheck (q : TimedQueue Key Info) (now : SteadyClock) (sig : ExitingSignal) :
    LoopStep Key Info :=
  if sig.isExiting 0 then .exit
  else if q.m_stop then .exit
  else if q.m_list.elements.isEmpty && !sig.isExiting 1 then .wait
  else
    match q.m_list.elements with
    | [] => .undefined
    | shortest :: _ =>
      if decide (now < shortest.order) && !sig.isExiting 2 then
        .waitFor (SteadyClock.wrap (shortest.order - now))
      else if !sig.isExiting 3 then .callback shortest.key shortest.value
      else .skipped

/-- A call made on the queue while `loop` has released the lock for the callback: by the
callback itself, which may re-enter the queue, or by another thread. -/
inductive Call (Key Info : Type) where
  | queue (exiting : ExitingReading) (now : SteadyClock) (key : Key) (delay : Int) (info : Info)
      (reQueue : Bool) : Call Key Info
  | remove (exiting : ExitingReading) (key : Key) : Call Key Info
  | stop : Call Key Info
deriving DecidableEq, Repr

/-- The state after one call. -/
def Call.run [LinearOrder Key] (c : Call Key Info) (q : TimedQueue Key Info) :
    TimedQueue Key Info :=
  match c with
  | .queue exiting now key delay info reQueue => (q.queue exiting now key delay info reQueue).1
  | .remove exiting key => (q.remove exiting key).1
  | .stop => q.stop.1

/-- The state after a sequence of calls, made one after the other. -/
def runCalls [LinearOrder Key] (calls : List (Call Key Info)) (q : TimedQueue Key Info) :
    TimedQueue Key Info :=
  calls.foldl (fun s c => c.run s) q

/-- The type `ExpiredCallback`, `std::function<bool(const Key &, const Info &)>`: for the entry
it is handed, the calls the callback makes on the queue and the boolean it returns ("return
true to erase the element"). -/
abbrev ExpiredCallback (Key Info : Type) := Key → Info → List (Call Key Info) × Bool

/-- One iteration of the `while` of `loop`: the locked check, the callback with the lock
released, and under the lock again `if (erase) m_list.erase(key)`. -/
def loopIteration [LinearOrder Key] (q : TimedQueue Key Info) (now : SteadyClock)
    (sig : ExitingSignal) (onElementExpired : ExpiredCallback Key Info) : TimedQueue Key Info :=
  match loopCheck q now sig with
  | .callback key info =>
    let r := onElementExpired key info
    let q1 := runCalls r.1 q
    if r.2 then ⟨q1.m_list.erase key, q1.m_stop⟩ else q1
  | _ => q

end TimedQueue

/-! ## BusyRetryConfig -/

/-- Modelled from the spec: the constants `BusyRetryTimeOutForMainThread` and
`BusyRetryTimeOutForSubThread` of `CoreConst.h`, the maximum wait budget of the main thread and
of any other thread; "both are configuration constants", and their values are parameters here.
`D` stands for the type `double`. -/
structure CoreConst (D : Type) where
  BusyRetryTimeOutForMainThread : D
  BusyRetryTimeOutForSubThread : D

/-- The two values of `std::cv_status`. -/
inductive CvStatus where
  | no_timeout : CvStatus
  | timeout : CvStatus
deriving DecidableEq, Repr

/-- The counters of a `BusyRetryConfig`.  Their declaration is in `BusyRetryConfig.hpp`; the
data model gives them as integers, and they are integers here. -/
structure BusyRetryConfig where
  m_numberOfWaitingHandles : Int
  m_numberOfSteppingHandles : Int
deriving DecidableEq, Repr

/-- What `handleDidStep` reads of its `HandleStatement`: the value of
`handleStatement->getHandle()->isInTransaction()`. -/
structure HandleStatement where
  isInTransaction : Bool
deriving DecidableEq, Repr

/-- The thread-local `std::map<String, double>` behind `m_waitedTimes`. -/
abbrev WaitedTimes (D : Type) := String → Option D

/-- The value of `waitedTimes[path]`; `operator[]` gives a missing entry the value 0. -/
def WaitedTimes.get {D : Type} [Zero D] (w : WaitedTimes D) (path : String) : D :=
  (w path).getD 0

/-- The map after `waitedTimes[path] = value`. -/
def WaitedTimes.assign {D : Type} (w : WaitedTimes D) (path : String) (value : D) :
    WaitedTimes D :=
  fun p => if p = path then some value else w p

/-- What the environment answers when `onBusy` blocks in `m_cond.wait_for`: the status the wait
returns, and the time `(double) waitedTime / 1E9` computed from the clock readings taken before
the lock and after the wait. -/
structure WaitOutcome (D : Type) where
  status : CvStatus
  waited : D

/-- What a call of `onBusy` does: the boolean it returns, whether it blocked in
`m_cond.wait_for`, and the counters and the caller's map after the call. -/
structure OnBusyResult (D : Type) where
  retry : Bool
  blocked : Bool
  config : BusyRetryConfig
  waitedTimes : WaitedTimes D

namespace BusyRetryConfig

variable {D : Type}

/-- The function `handleWillStep(handleStatement)`. -/
def handleWillStep (c : BusyRetryConfig) (_handleStatement : HandleStatement) :
    BusyRetryConfig × Bool :=
  ({ c with m_numberOfSteppingHandles := c.m_numberOfSteppingHandles + 1 }, true)

/-- The function `handleDidStep(handleStatement, result)`.  The second component tells that
`m_cond.notify_all()` was called. -/
def handleDidStep (c : BusyRetryConfig) (handleStatement : HandleStatement) (_result : Bool) :
    BusyRetryConfig × Bool :=
  let c1 := { c with m_numberOfSteppingHandles := c.m_numberOfSteppingHandles - 1 }
  if !handleStatement.isInTransaction then
    (c1, decide (0 < c1.m_numberOfWaitingHandles))
  else (c1, false)

/-- The value `remainingTime` is initialised with: the budget of the caller kind, where
`isMainThread` is `pthread_main_np() != 0`. -/
def timeOut (consts : CoreConst D) (isMainThread : Bool) : D :=
  if isMainThread then consts.BusyRetryTimeOutForMainThread
  else consts.BusyRetryTimeOutForSubThread

/-- The value of `remainingTime` when `onBusy` tests it: the budget of the caller kind, less
`waitedTimes[path]` unless this is the first retry. -/
def remainingTime [Zero D] [Sub D] (consts : CoreConst D) (waitedTimes : WaitedTimes D)
    (isMainThread : Bool) (path : String) (numberOfTimes : Int) : D :=
  if numberOfTimes = 0 then timeOut consts isMainThread
  else timeOut consts isMainThread - waitedTimes.get path

/-- The function `onBusy(path, numberOfTimes)`.  `waitedTimes` is the calling thread's map and
`wait` the answer of the environment, used only when the call blocks.  While the call blocks
the mutex is released; what other threads do to the counters meanwhile is not represented. -/
def onBusy [Zero D] [Add D] [Sub D] [LT D] [∀ a b : D, Decidable (a < b)]
    (consts : CoreConst D) (c : BusyRetryConfig) (waitedTimes : WaitedTimes D)
    (isMainThread : Bool) (path : String) (numberOfTimes : Int) (wait : WaitOutcome D) :
    OnBusyResult D :=
  let remaining := remainingTime consts waitedTimes isMainThread path numberOfTimes
  let w1 :=
    if numberOfTimes = 0 then waitedTimes.assign path 0
    else waitedTimes.assign path (waitedTimes.get path)
  if 0 < remaining then
    let c1 := { c with m_numberOfWaitingHandles := c.m_numberOfWaitingHandles + 1 }
    let blocked := decide (0 < c1.m_numberOfSteppingHandles)
    let status := if blocked then wait.status else CvStatus.timeout
    let c2 := { c1 with m_numberOfWaitingHandles := c1.m_numberOfWaitingHandles - 1 }
    let w2 :=
      if status = CvStatus.no_timeout then w1.assign path (w1.get path + wait.waited) else w1
    ⟨decide (status = CvStatus.no_timeout), blocked, c2, w2⟩
  else ⟨false, false, c, w1⟩

end BusyRetryConfig

/-! ## DatabasePool -/

/-- A `Database` object on the heap, named by the number of objects constructed before it. -/
abbrev DatabaseRef := Nat

/-- The struct `ReferencedDatabase`: the shared pointer and the reference count. -/
structure ReferencedDatabase where
  database : DatabaseRef
  reference : Int
deriving DecidableEq, Repr

/-- A `RecyclableDatabase` handle: the database it refers to, `none` for a null handle. -/
abbrev RecyclableDatabase := Option DatabaseRef

/-- The members of `DatabasePool`: `m_databases`, the map from path to
`{database, reference}`, and `m_event`, kept as the list of the `onDatabaseCreated` calls the
event object has received, oldest first. -/
structure DatabasePool where
  m_databases : String → Option ReferencedDatabase
  m_event : List DatabaseRef

namespace DatabasePool

/-- Modelled from the spec: `get(path)` (defined in `DatabasePool.cpp`), the lookup that
"returns nothing if absent; never creates" and, "if found, increments its reference count and
returns a recyclable handle". -/
def get (pool : DatabasePool) (path : String) : DatabasePool × RecyclableDatabase :=
  match pool.m_databases path with
  | none => (pool, none)
  | some r =>
    ({ pool with
        m_databases := fun p =>
          if p = path then some ⟨r.database, r.reference + 1⟩ else pool.m_databases p },
      some r.database)

/-- Modelled from the spec: `add(path, database)` (defined in `DatabasePool.cpp`), which
"inserts it with reference count 1, fires the creation event, and returns a handle". -/
def add (pool : DatabasePool) (path : String) (database : DatabaseRef) :
    DatabasePool × RecyclableDatabase :=
  (⟨fun p => if p = path then some ⟨database, 1⟩ else pool.m_databases p,
      pool.m_event ++ [database]⟩,
    some database)

/-- The pool together with the heap: `constructed` counts the `T` objects constructed so far. -/
structure Process where
  pool : DatabasePool
  constructed : Nat

/-- The first block of `getOrCreate<T>(path)`, run under `SharedLockGuard`: the lookup of the
normalized path.  A handle is returned when the lookup finds one; `none` tells that the call
goes on to the second block.  `normalize` is `Path::normalize`. -/
def getOrCreateShared (normalize : String → String) (s : Process) (path : String) :
    Process × RecyclableDatabase :=
  let normalized := normalize path
  match s.pool.get normalized with
  | (pool, some database) => ({ s with pool := pool }, some database)
  | (_, none) => (s, none)

/-- The second block of `getOrCreate<T>(path)`, run under `LockGuard`: the second lookup, and
when it fails `add(normalized, std::shared_ptr<Database>(new T(normalized)))`. -/
def getOrCreateExclusive (normalize : String → String) (s : Process) (path : String) :
    Process × RecyclableDatabase :=
  let normalized := normalize path
  match s.pool.get normalized with
  | (pool, some database) => ({ s with pool := pool }, some database)
  | (_, none) =>
    let database : DatabaseRef := s.constructed
    let r := s.pool.add normalized database
    (⟨r.1, s.constructed + 1⟩, r.2)

/-- The function `getOrCreate<T>(path)` run by one thread with no other thread in between. -/
def getOrCreate (normalize : String → String) (s : Process) (path : String) :
    Process × RecyclableDatabase :=
  match getOrCreateShared normalize s path with
  | (s1, some database) => (s1, some database)
  | (s1, none) => getOrCreateExclusive normalize s1 path

/-- Where a thread that called `getOrCreate<T>(path)` is: before the first block, between the
two blocks (the first lookup missed), or returned with a handle. -/
inductive Caller where
  | start : Caller
  | missed : Caller
  | returned (database : RecyclableDatabase) : Caller
deriving DecidableEq, Repr

/-- Threads, numbered, each in a call of `getOrCreate<T>(path)` for the same path, and the
process they share. -/
structure Concurrent where
  process : Process
  callers : Nat → Caller

/-- Thread `i` runs its next block; the lock makes the block atomic.  A thread that has
returned does nothing.  Two first blocks may overlap in time, both under the shared lock; they
are put in an order here, which leaves out only how their updates of one reference count
interleave. -/
def Concurrent.step (normalize : String → String) (path : String) (s : Concurrent) (i : Nat) :
    Concurrent :=
  match s.callers i with
  | .start =>
    match getOrCreateShared normalize s.process path with
    | (p, some database) =>
      ⟨p, fun j => if j = i then .returned (some database) else s.callers j⟩
    | (p, none) => ⟨p, fun j => if j = i then .missed else s.callers j⟩
  | .missed =>
    let r := getOrCreateExclusive normalize s.process path
    ⟨r.1, fun j => if j = i then .returned r.2 else s.callers j⟩
  | .returned _ => s

/-- The state after the threads ran their blocks in the order `schedule` gives. -/
def Concurrent.run (normalize : String → String) (path : String) (s : Concurrent)
    (schedule : List Nat) : Concurrent :=
  schedule.foldl (Concurrent.step normalize path) s

/-- The state in which every thread is about to call `getOrCreate<T>(path)`. -/
def Concurrent.initial (pool : DatabasePool) (constructed : Nat) : Concurrent :=
  ⟨⟨pool, constructed⟩, fun _ => .start⟩

end DatabasePool

end WCDB

/-! # Theorems -/

namespace WCDB

namespace OrderedUniqueList

variable {Key Info : Type}

theorem mem_place [LinearOrder Key] (e y : Element Key Info) (l : List (Element Key Info)) :
    y ∈ place e l ↔ y = e ∨ y ∈ l := by
  induction l with
  | nil => simp [place]
  | cons x xs ih =>
    unfold place
    split
    · simp
    · simp only [List.mem_cons, ih]
      tauto

theorem mem_erase [DecidableEq Key] (l : OrderedUniqueList Key Info) (key : Key)
    (e : Element Key Info) :
    e ∈ (l.erase key).elements ↔ e ∈ l.elements ∧ e.key ≠ key := by
  simp [erase, List.mem_filter]

theorem erase_of_absent [DecidableEq Key] (l : OrderedUniqueList Key Info) (key : Key)
    (h : ∀ e ∈ l.elements, e.key ≠ key) : l.erase key = l := by
  cases l with
  | mk es =>
    simp only [erase, mk.injEq, List.filter_eq_self]
    intro e he
    simpa using h e he

theorem find_isSome [DecidableEq Key] (l : OrderedUniqueList Key Info) (key : Key) :
    (l.find key).isSome = true ↔ ∃ e ∈ l.elements, e.key = key := by
  simp [find, List.find?_isSome]

theorem precedes_trans [LinearOrder Key] {a b c : Element Key Info} (h1 : a.precedes b)
    (h2 : b.precedes c) : a.precedes c := by
  unfold Element.precedes at *
  rcases h1 with h1 | ⟨h1, k1⟩ <;> rcases h2 with h2 | ⟨h2, k2⟩
  · left; exact lt_trans h1 h2
  · left; exact h2 ▸ h1
  · left; exact h1 ▸ h2
  · right; exact ⟨h1.trans h2, lt_trans k1 k2⟩

theorem precedes_of_not_precedes [LinearOrder Key] {a b : Element Key Info}
    (h : ¬ a.precedes b) (hk : a.key ≠ b.key) : b.precedes a := by
  unfold Element.precedes at *
  push_neg at h
  obtain ⟨h1, h2⟩ := h
  rcases lt_or_eq_of_le h1 with h3 | h3
  · left; exact h3
  · right
    refine ⟨h3, ?_⟩
    have := h2 h3.symm
    exact lt_of_le_of_ne this (Ne.symm hk)

theorem order_le_of_precedes [LT Key] {a b : Element Key Info} (h : a.precedes b) :
    a.order ≤ b.order := by
  unfold Element.precedes at h
  rcases h with h | ⟨h, _⟩
  · exact le_of_lt h
  · exact le_of_eq h

theorem wellFormed_clear [LT Key] (l : OrderedUniqueList Key Info) : l.clear.WellFormed := by
  simp [clear, WellFormed]

theorem wellFormed_erase [LinearOrder Key] (l : OrderedUniqueList Key Info) (key : Key)
    (h : l.WellFormed) : (l.erase key).WellFormed := by
  refine ⟨h.1.sublist (List.filter_sublist _), ?_⟩
  exact h.2.sublist ((List.filter_sublist _).map _)

theorem pairwise_place [LinearOrder Key] (e : Element Key Info) (l : List (Element Key Info))
    (h : l.Pairwise (fun a b => a.precedes b)) (hk : ∀ x ∈ l, x.key ≠ e.key) :
    (place e l).Pairwise (fun a b => a.precedes b) := by
  induction l with
  | nil => simp [place]
  | cons x xs ih =>
    have hx := List.pairwise_cons.mp h
    unfold place
    split
    · rename_i hp
      refine List.pairwise_cons.mpr ⟨?_, h⟩
      intro y hy
      rcases List.mem_cons.mp hy with rfl | hy
      · exact hp
      · exact precedes_trans hp (hx.1 y hy)
    · rename_i hp
      refine List.pairwise_cons.mpr ⟨?_, ih hx.2 (fun y hy => hk y (List.mem_cons_of_mem _ hy))⟩
      intro y hy
      rcases (mem_place e y xs).mp hy with rfl | hy
      · exact precedes_of_not_precedes hp (Ne.symm (hk x (List.mem_cons_self _ _)))
      · exact hx.1 y hy

theorem wellFormed_insert [LinearOrder Key] (l : OrderedUniqueList Key Info)
    (order : SteadyClock) (key : Key) (value : Info) (h : l.WellFormed) :
    (l.insert order key value).WellFormed := by
  have he := wellFormed_erase l key h
  have hk : ∀ x ∈ (l.erase key).elements, x.key ≠ key := fun x hx => ((mem_erase l key x).mp hx).2
  refine ⟨pairwise_place _ _ he.1 hk, ?_⟩
  have hperm : ∀ (es : List (Element Key Info)) (e : Element Key Info),
      (place e es).Perm (e :: es) := by
    intro es e
    induction es with
    | nil => simp [place]
    | cons x xs ih =>
      unfold place
      split
      · exact List.Perm.refl _
      · exact (List.Perm.cons x ih).trans (List.Perm.swap e x xs)
  have hp := (hperm (l.erase key).elements ⟨order, key, value⟩).map (fun e => e.key)
  refine (List.Perm.nodup_iff hp).mpr ?_
  simp only [List.map_cons, List.nodup_cons, List.mem_map, not_exists, not_and]
  exact ⟨fun x hx => hk x hx, he.2⟩

theorem head_order_le [LT Key] (l : OrderedUniqueList Key Info) (first : Element Key Info)
    (rest : List (Element Key Info)) (h : l.WellFormed) (hl : l.elements = first :: rest) :
    ∀ e ∈ l.elements, first.order ≤ e.order := by
  intro e he
  have hp := h.1
  rw [hl] at hp he
  rcases List.mem_cons.mp he with rfl | he
  · exact le_refl _
  · exact order_le_of_precedes ((List.pairwise_cons.mp hp).1 e he)

theorem key_unique [LT Key] (l : OrderedUniqueList Key Info) (first : Element Key Info)
    (rest : List (Element Key Info)) (h : l.WellFormed) (hl : l.elements = first :: rest) :
    ∀ e ∈ l.elements, e.key = first.key → e = first := by
  intro e he hk
  have hn := h.2
  rw [hl] at hn he
  rcases List.mem_cons.mp he with rfl | he
  · rfl
  · exfalso
    simp only [List.map_cons, List.nodup_cons, List.mem_map, not_exists, not_and] at hn
    exact hn.1 e he hk

end OrderedUniqueList

namespace TimedQueue

variable {Key Info : Type}

theorem loopCheck_callback_iff (q : TimedQueue Key Info) (now : SteadyClock)
    (sig : ExitingSignal) (key : Key) (info : Info) :
    loopCheck q now sig = .callback key info ↔
      q.m_stop = false ∧ (∀ read, read < 4 → sig.isExiting read = false) ∧
      ∃ first rest, q.m_list.elements = first :: rest ∧ first.order ≤ now ∧
        first.key = key ∧ first.value = info := by
  obtain ⟨⟨es⟩, st⟩ := q
  have hsig : (∀ read, read < 4 → sig.isExiting read = false) ↔ 4 ≤ sig.raisedAt := by
    simp only [ExitingSignal.isExiting, decide_eq_false_iff_not, not_le]
    constructor
    · intro h
      exact h 3 (by omega)
    · intro h read hr
      omega
  rw [hsig]
  cases es with
  | nil =>
    simp only [loopCheck, ExitingSignal.isExiting]
    constructor
    · intro h
      split_ifs at h
    · rintro ⟨_, _, first, rest, h, _⟩
      simp at h
  | cons x xs =>
    simp only [loopCheck, ExitingSignal.isExiting, List.isEmpty_cons, Bool.false_and,
      Bool.false_eq_true, if_false]
    constructor
    · intro h
      split_ifs at h with h0 h1 h2 h3
      simp only [LoopStep.callback.injEq] at h
      have h3a : ¬ sig.raisedAt ≤ 3 := by simpa using h3
      have h4 : 4 ≤ sig.raisedAt := by omega
      refine ⟨by simpa using h1, h4, x, xs, rfl, ?_, h.1, h.2⟩
      by_contra hc
      apply h2
      have h2a : ¬ sig.raisedAt ≤ 2 := by omega
      simp [lt_of_not_le hc, h2a]
    · rintro ⟨hs, h4, first, rest, hl, hle, hk, hv⟩
      simp only [List.cons.injEq] at hl
      obtain ⟨rfl, rfl⟩ := hl
      have e0 : ¬ sig.raisedAt ≤ 0 := by omega
      have e3 : ¬ sig.raisedAt ≤ 3 := by omega
      have hn : ¬ now < x.order := not_lt.mpr hle
      simp [e0, e3, hs, hn, hk, hv]

theorem wellFormed_queue [LinearOrder Key] (q : TimedQueue Key Info) (exiting : ExitingReading)
    (now : SteadyClock) (key : Key) (delay : Int) (info : Info) (reQueue : Bool)
    (h : q.m_list.WellFormed) :
    (q.queue exiting now key delay info reQueue).1.m_list.WellFormed := by
  unfold queue
  split_ifs
  · exact OrderedUniqueList.wellFormed_clear q.m_list
  · exact h
  · exact h
  · exact OrderedUniqueList.wellFormed_insert _ _ _ _ h

theorem wellFormed_remove [LinearOrder Key] (q : TimedQueue Key Info) (exiting : ExitingReading)
    (key : Key) (h : q.m_list.WellFormed) : (q.remove exiting key).1.m_list.WellFormed := by
  unfold remove
  split_ifs
  · exact h
  · exact OrderedUniqueList.wellFormed_clear (q.m_list.erase key)
  · exact OrderedUniqueList.wellFormed_erase _ _ h

theorem wellFormed_runCalls [LinearOrder Key] (calls : List (Call Key Info))
    (q : TimedQueue Key Info) (h : q.m_list.WellFormed) :
    (runCalls calls q).m_list.WellFormed := by
  induction calls generalizing q with
  | nil => exact h
  | cons c cs ih =>
    apply ih
    cases c with
    | queue exiting now key delay info reQueue => exact wellFormed_queue _ _ _ _ _ _ _ h
    | remove exiting key => exact wellFormed_remove _ _ _ h
    | stop => exact OrderedUniqueList.wellFormed_clear q.m_list

/-- C1: in an iteration of `loop` the callback is invoked exactly when the queue is not stopped,
the process is not exiting at any of the places the iteration tests it, the list is non-empty
and `now` is not earlier than the expiry of the first entry, and it is handed the key and info
of that first entry; on a well-formed list no entry recorded for the handed key expires after
`now`, and no pending entry expires strictly earlier than the handed one. -/
theorem loop_invokes_callback_only_for_due_first_entry [LinearOrder Key]
    (q : TimedQueue Key Info) (now : SteadyClock) (sig : ExitingSignal) (key : Key) (info : Info)
    (hwf : q.m_list.WellFormed) :
    (loopCheck q now sig = .callback key info ↔
      q.m_stop = false ∧ (∀ read, read < 4 → sig.isExiting read = false) ∧
      ∃ first rest, q.m_list.elements = first :: rest ∧ first.order ≤ now ∧
        first.key = key ∧ first.value = info) ∧
    (loopCheck q now sig = .callback key info →
      (∀ e ∈ q.m_list.elements, e.key = key → e.order ≤ now) ∧
      (∀ e ∈ q.m_list.elements, ∀ f ∈ q.m_list.elements, f.key = key →
        ¬ e.order < f.order)) := by
  refine ⟨loopCheck_callback_iff q now sig key info, ?_⟩
  intro h
  obtain ⟨_, _, first, rest, hl, hle, hk, _⟩ := (loopCheck_callback_iff q now sig key info).mp h
  have huniq := OrderedUniqueList.key_unique q.m_list first rest hwf hl
  have hmin := OrderedUniqueList.head_order_le q.m_list first rest hwf hl
  constructor
  · intro e he hek
    rw [huniq e he (hek.trans hk.symm)]
    exact hle
  · intro e he f hf hfk
    rw [huniq f hf (hfk.trans hk.symm)]
    exact not_lt.mpr (hmin e he)

theorem loop_invokes_callback_only_for_due_first_entry_witness :
    (⟨[⟨120, 2, "b"⟩, ⟨150, 1, "a"⟩]⟩ : OrderedUniqueList Nat String).WellFormed ∧
    loopCheck (⟨⟨[⟨120, 2, "b"⟩, ⟨150, 1, "a"⟩]⟩, false⟩ : TimedQueue Nat String) 130 ⟨4⟩
      = .callback 2 "b" ∧
    (∀ e ∈ [(⟨120, 2, "b"⟩ : Element Nat String), ⟨150, 1, "a"⟩], e.key = 2 → e.order ≤ 130) :=
  ⟨by decide, by decide,
    ((loop_invokes_callback_only_for_due_first_entry
      (⟨⟨[⟨120, 2, "b"⟩, ⟨150, 1, "a"⟩]⟩, false⟩ : TimedQueue Nat String) 130 ⟨4⟩ 2 "b"
      (by decide)).2 (by decide)).1⟩

/-- C2: on a queue that is not stopped, with the process not exiting, `queue` with
`reQueue = false` for a key that is already in the list changes nothing (the list with every
entry, and the stop flag) and does not signal the condition variable, whatever the delay and
the info. -/
theorem queue_without_requeue_of_present_key_is_noop [LinearOrder Key]
    (q : TimedQueue Key Info) (now : SteadyClock) (key : Key) (delay : Int) (info : Info)
    (hstop : q.m_stop = false) (hkey : ∃ e ∈ q.m_list.elements, e.key = key) :
    q.queue false now key delay info false = (q, false) := by
  have hf := (OrderedUniqueList.find_isSome q.m_list key).mpr hkey
  simp [queue, hstop, hf]

theorem queue_without_requeue_of_present_key_is_noop_witness :
    (⟨⟨[⟨120, 2, "b"⟩, ⟨150, 1, "a"⟩]⟩, false⟩ : TimedQueue Nat String).queue false 100 1 5 "c"
      false = (⟨⟨[⟨120, 2, "b"⟩, ⟨150, 1, "a"⟩]⟩, false⟩, false) :=
  queue_without_requeue_of_present_key_is_noop
    (⟨⟨[⟨120, 2, "b"⟩, ⟨150, 1, "a"⟩]⟩, false⟩ : TimedQueue Nat String) 100 1 5 "c" rfl
    ⟨⟨150, 1, "a"⟩, by decide, rfl⟩

theorem runCalls_of_stopped [LinearOrder Key] (calls : List (Call Key Info))
    (q : TimedQueue Key Info) (hl : q.m_list.elements = []) (hs : q.m_stop = true) :
    runCalls calls q = q := by
  obtain ⟨⟨es⟩, st⟩ := q
  simp only at hl hs
  subst hl hs
  induction calls with
  | nil => rfl
  | cons c cs ih =>
    have hc : c.run (⟨⟨[]⟩, true⟩ : TimedQueue Key Info) = ⟨⟨[]⟩, true⟩ := by
      cases c with
      | queue exiting now key delay info reQueue =>
        cases exiting <;> simp [Call.run, queue, stop, OrderedUniqueList.clear]
      | remove exiting key => simp [Call.run, remove]
      | stop => simp [Call.run, stop, OrderedUniqueList.clear]
    simp only [runCalls, List.foldl_cons, hc]
    exact ih

/-- C3: once the list is empty and the stop flag set, as `stop()` leaves them, every `queue`
and every `remove`, whatever its arguments and whether or not the process is exiting, leaves
the list empty and the flag set, and so does every sequence of `queue`, `remove` and `stop`
calls; from any state with the flag set, no such sequence clears the flag. -/
theorem stopped_queue_ignores_calls [LinearOrder Key] (q : TimedQueue Key Info)
    (hl : q.m_list.elements = []) (hs : q.m_stop = true) :
    (∀ (p : TimedQueue Key Info), p.stop.1.m_list.elements = [] ∧ p.stop.1.m_stop = true) ∧
    (∀ exiting now key delay info reQueue,
      (q.queue exiting now key delay info reQueue).1 = q) ∧
    (∀ exiting key, (q.remove exiting key).1 = q) ∧
    (∀ calls, runCalls calls q = q) ∧
    (∀ (p : TimedQueue Key Info) calls, p.m_stop = true → (runCalls calls p).m_stop = true) := by
  refine ⟨fun p => ⟨rfl, rfl⟩, ?_, ?_, fun calls => runCalls_of_stopped calls q hl hs, ?_⟩
  · intro exiting now key delay info reQueue
    exact runCalls_of_stopped [.queue exiting now key delay info reQueue] q hl hs
  · intro exiting key
    exact runCalls_of_stopped [.remove exiting key] q hl hs
  · intro p calls hp
    induction calls generalizing p with
    | nil => exact hp
    | cons c cs ih =>
      apply ih
      cases c with
      | queue exiting now key delay info reQueue =>
        cases exiting <;> simp [Call.run, queue, stop, hp]
      | remove exiting key => simp [Call.run, remove, hp]
      | stop => rfl

theorem stopped_queue_ignores_calls_witness :
    runCalls [Call.queue false 10 1 5 "a" true, Call.remove true 2, Call.stop,
        Call.queue true 20 3 5 "c" false]
      ((⟨⟨[⟨120, 2, "b"⟩]⟩, false⟩ : TimedQueue Nat String).stop.1) =
        (⟨⟨[⟨120, 2, "b"⟩]⟩, false⟩ : TimedQueue Nat String).stop.1 :=
  (stopped_queue_ignores_calls
    ((⟨⟨[⟨120, 2, "b"⟩]⟩, false⟩ : TimedQueue Nat String).stop.1) rfl rfl).2.2.2.1
    [Call.queue false 10 1 5 "a" true, Call.remove true 2, Call.stop,
      Call.queue true 20 3 5 "c" false]

/-- C4, counterexample: the queue is not stopped and holds entries for keys 1 and 2; with the
process exiting, `remove(1)` ends in `stop()`, which drops the entry of key 2 as well. -/
theorem remove_while_exiting_drops_other_entries :
    (⟨⟨[⟨120, 2, "b"⟩, ⟨150, 1, "a"⟩]⟩, false⟩ : TimedQueue Nat String).m_stop = false ∧
    (⟨120, 2, "b"⟩ : Element Nat String) ∈
      (⟨⟨[⟨120, 2, "b"⟩, ⟨150, 1, "a"⟩]⟩, false⟩ : TimedQueue Nat String).m_list.elements ∧
    (⟨120, 2, "b"⟩ : Element Nat String) ∉
      ((⟨⟨[⟨120, 2, "b"⟩, ⟨150, 1, "a"⟩]⟩, false⟩ : TimedQueue Nat String).remove true
        1).1.m_list.elements := by
  decide

/-- C4, amended: on a queue that is not stopped, with the process not exiting, after
`remove(key)` no entry of the list has that key, an entry with a different key is in the list
after the call exactly when it was before (same expiry, same info, same relative position), the
stop flag is unchanged and nothing is signalled; when the key was absent the state is
unchanged. -/
theorem remove_erases_only_the_key [DecidableEq Key] (q : TimedQueue Key Info) (key : Key)
    (hstop : q.m_stop = false) :
    (∀ e ∈ (q.remove false key).1.m_list.elements, e.key ≠ key) ∧
    (∀ e : Element Key Info, e.key ≠ key →
      (e ∈ (q.remove false key).1.m_list.elements ↔ e ∈ q.m_list.elements)) ∧
    (q.remove false key).1.m_list.elements.Sublist q.m_list.elements ∧
    (q.remove false key).1.m_stop = false ∧
    (q.remove false key).2 = false ∧
    ((∀ e ∈ q.m_list.elements, e.key ≠ key) → (q.remove false key).1 = q) := by
  have hr : q.remove false key = (⟨q.m_list.erase key, q.m_stop⟩, false) := by
    simp [remove, hstop]
  rw [hr]
  refine ⟨?_, ?_, ?_, hstop, rfl, ?_⟩
  · intro e he
    exact ((OrderedUniqueList.mem_erase q.m_list key e).mp he).2
  · intro e hk
    constructor
    · intro he
      exact ((OrderedUniqueList.mem_erase q.m_list key e).mp he).1
    · intro he
      exact (OrderedUniqueList.mem_erase q.m_list key e).mpr ⟨he, hk⟩
  · exact List.filter_sublist _
  · intro h
    simp only [OrderedUniqueList.erase_of_absent q.m_list key h]

theorem remove_erases_only_the_key_witness :
    ((⟨120, 2, "b"⟩ : Element Nat String) ∈
        ((⟨⟨[⟨120, 2, "b"⟩, ⟨150, 1, "a"⟩]⟩, false⟩ : TimedQueue Nat String).remove false
          1).1.m_list.elements ↔
      (⟨120, 2, "b"⟩ : Element Nat String) ∈
        (⟨⟨[⟨120, 2, "b"⟩, ⟨150, 1, "a"⟩]⟩, false⟩ : TimedQueue Nat String).m_list.elements) :=
  (remove_erases_only_the_key
    (⟨⟨[⟨120, 2, "b"⟩, ⟨150, 1, "a"⟩]⟩, false⟩ : TimedQueue Nat String) 1 rfl).2.1
    ⟨120, 2, "b"⟩ (by decide)

theorem place_head [LinearOrder Key] (e : Element Key Info) (l : List (Element Key Info)) :
    ∃ y ys, OrderedUniqueList.place e l = y :: ys ∧ (y = e ∨ (y ∈ l ∧ ¬ e.precedes y)) := by
  cases l with
  | nil => exact ⟨e, [], rfl, Or.inl rfl⟩
  | cons x xs =>
    unfold OrderedUniqueList.place
    split
    · exact ⟨e, x :: xs, rfl, Or.inl rfl⟩
    · rename_i hp
      exact ⟨x, OrderedUniqueList.place e xs, rfl, Or.inr ⟨List.mem_cons_self _ _, hp⟩⟩

theorem wrap_le_max (t : Int) : SteadyClock.wrap t ≤ SteadyClock.max := by
  unfold SteadyClock.wrap SteadyClock.max
  omega

/-- The expiry `queue` compares the new head of the list with: the expiry of the first entry
pending before the call, `SteadyClock::max()` when there is none. -/
theorem queue_signal_iff [LinearOrder Key] (q : TimedQueue Key Info) (now : SteadyClock)
    (key : Key) (delay : Int) (info : Info) (reQueue : Bool) (hwf : q.m_list.WellFormed)
    (hstop : q.m_stop = false)
    (hins : reQueue = true ∨ ∀ e ∈ q.m_list.elements, e.key ≠ key) :
    ((q.queue false now key delay info reQueue).2 = true ↔
      ((q.m_list.elements = [] ∧ SteadyClock.plus now delay < SteadyClock.max) ∨
        ∃ first rest, q.m_list.elements = first :: rest ∧
          SteadyClock.plus now delay < first.order)) := by
  have hfind : (!reQueue && (q.m_list.find key).isSome) = false := by
    rcases hins with h | h
    · simp [h]
    · have : ¬ (q.m_list.find key).isSome = true := by
        rw [OrderedUniqueList.find_isSome]
        rintro ⟨e, he, hk⟩
        exact h e he hk
      simp [this]
  obtain ⟨y, ys, hy, hcase⟩ :=
    place_head (⟨SteadyClock.plus now delay, key, info⟩ : Element Key Info)
      (q.m_list.erase key).elements
  have hq : (q.queue false now key delay info reQueue).2 =
      decide (y.order < (match q.m_list.elements with
        | [] => SteadyClock.max
        | e :: _ => e.order)) := by
    simp only [queue, hstop, hfind, Bool.false_eq_true, if_false, OrderedUniqueList.insert, hy]
  rw [hq, decide_eq_true_eq]
  cases hl : q.m_list.elements with
  | nil =>
    simp only [List.nil_eq, reduceCtorEq, false_and, exists_false, or_false, true_and]
    rcases hcase with rfl | ⟨hmem, _⟩
    · exact Iff.rfl
    · have := ((OrderedUniqueList.mem_erase q.m_list key y).mp hmem).1
      rw [hl] at this
      simp at this
  | cons first rest =>
    have hmin := OrderedUniqueList.head_order_le q.m_list first rest hwf hl
    show y.order < first.order ↔ _
    constructor
    · intro hlt
      right
      refine ⟨first, rest, rfl, ?_⟩
      rcases hcase with rfl | ⟨hmem, hnp⟩
      · exact hlt
      · have hmem2 := ((OrderedUniqueList.mem_erase q.m_list key y).mp hmem).1
        have := hmin y hmem2
        exact absurd (lt_of_lt_of_le hlt this) (lt_irrefl _)
    · rintro (⟨h, _⟩ | ⟨f, r, hf, hlt⟩)
      · simp at h
      · obtain ⟨rfl, rfl⟩ := List.cons.inj hf
        rcases hcase with rfl | ⟨hmem, hnp⟩
        · exact hlt
        · exfalso
          apply hnp
          left
          have hmem2 := ((OrderedUniqueList.mem_erase q.m_list key y).mp hmem).1
          exact lt_of_lt_of_le hlt (hmin y hmem2)

/-- C8, counterexample: the list is empty and the queue not stopped; `queue` with a delay of
9.2e9 seconds read at tick 23372036854775807 inserts an entry whose expiry is
`SteadyClock::max()`, the value `shortest` takes for an empty list, and does not signal. -/
theorem queue_into_empty_list_at_max_expiry_does_not_signal :
    (init : TimedQueue Nat String).m_list.elements = [] ∧
    (init : TimedQueue Nat String).m_stop = false ∧
    ((init : TimedQueue Nat String).queue false 23372036854775807 1 9200000000000000000 "a"
      true).1.m_list.elements = [⟨SteadyClock.max, 1, "a"⟩] ∧
    ((init : TimedQueue Nat String).queue false 23372036854775807 1 9200000000000000000 "a"
      true).2 = false := by
  decide

/-- C8, amended: on a well-formed queue that is not stopped, with the process not exiting, for a
`queue` call that inserts (re-queueing allowed, or the key absent): if the list was not empty
and the new expiry is strictly earlier than the expiry of every entry pending before the call,
`queue` signals the condition variable; if the list was empty, it signals exactly when the new
expiry is not `SteadyClock::max()`; if some pending entry with a different key has an expiry
not later than the new one, it does not signal. -/
theorem queue_signals_when_new_entry_is_earliest [LinearOrder Key] (q : TimedQueue Key Info)
    (now : SteadyClock) (key : Key) (delay : Int) (info : Info) (reQueue : Bool)
    (hwf : q.m_list.WellFormed) (hstop : q.m_stop = false)
    (hins : reQueue = true ∨ ∀ e ∈ q.m_list.elements, e.key ≠ key) :
    (q.m_list.elements ≠ [] →
      (∀ e ∈ q.m_list.elements, SteadyClock.plus now delay < e.order) →
      (q.queue false now key delay info reQueue).2 = true) ∧
    (q.m_list.elements = [] →
      ((q.queue false now key delay info reQueue).2 = true ↔
        SteadyClock.plus now delay ≠ SteadyClock.max)) ∧
    ((∃ e ∈ q.m_list.elements, e.key ≠ key ∧ e.order ≤ SteadyClock.plus now delay) →
      (q.queue false now key delay info reQueue).2 = false) := by
  have hiff := queue_signal_iff q now key delay info reQueue hwf hstop hins
  refine ⟨?_, ?_, ?_⟩
  · intro hne hall
    rw [hiff]
    right
    cases hl : q.m_list.elements with
    | nil => exact absurd hl hne
    | cons first rest =>
      refine ⟨first, rest, rfl, hall first ?_⟩
      rw [hl]
      exact List.mem_cons_self _ _
  · intro hnil
    rw [hiff]
    have hle : SteadyClock.plus now delay ≤ SteadyClock.max := wrap_le_max _
    constructor
    · rintro (⟨_, hlt⟩ | ⟨first, rest, hl, _⟩)
      · exact ne_of_lt hlt
      · rw [hnil] at hl
        simp at hl
    · intro hne
      exact Or.inl ⟨hnil, lt_of_le_of_ne hle hne⟩
  · rintro ⟨e, he, _, hle⟩
    rw [Bool.eq_false_iff, Ne, hiff]
    rintro (⟨hnil, _⟩ | ⟨first, rest, hl, hlt⟩)
    · rw [hnil] at he
      simp at he
    · have hmin := OrderedUniqueList.head_order_le q.m_list first rest hwf hl e he
      exact absurd (lt_of_lt_of_le hlt (le_trans hmin hle)) (lt_irrefl _)

theorem queue_signals_when_new_entry_is_earliest_witness :
    ((⟨⟨[⟨120, 2, "b"⟩, ⟨150, 1, "a"⟩]⟩, false⟩ : TimedQueue Nat String).queue false 100 3 10
      "c" true).2 = true :=
  (queue_signals_when_new_entry_is_earliest
    (⟨⟨[⟨120, 2, "b"⟩, ⟨150, 1, "a"⟩]⟩, false⟩ : TimedQueue Nat String) 100 3 10 "c" true
    (by decide) rfl (Or.inl rfl)).1 (by decide) (by decide)

/-- C9, counterexample: the entry of key 1 is due and handed to the callback; the callback
re-queues key 1 with a new expiry (tick 110) and returns true.  The re-queued entry is pending
when the callback returns, and the loop then erases it: the list is empty after the
iteration. -/
theorem loop_erases_entry_requeued_by_callback :
    loopCheck (⟨⟨[⟨5, 1, "a"⟩]⟩, false⟩ : TimedQueue Nat String) 10 ⟨4⟩ = .callback 1 "a" ∧
    (⟨110, 1, "b"⟩ : Element Nat String) ∈
      (runCalls [Call.queue false 10 1 100 "b" true]
        (⟨⟨[⟨5, 1, "a"⟩]⟩, false⟩ : TimedQueue Nat String)).m_list.elements ∧
    (loopIteration (⟨⟨[⟨5, 1, "a"⟩]⟩, false⟩ : TimedQueue Nat String) 10 ⟨4⟩
      (fun key _ => ([Call.queue false 10 key 100 "b" true], true))).m_list.elements = [] := by
  decide

/-- C9, amended: in an iteration of `loop` that hands a due entry `(key, info)` to the callback,
if the callback returns false the loop removes nothing: the state after the iteration is the
state the calls made during the callback left.  If it returns true the loop erases what is
then recorded under the handed key and nothing else: an entry is pending after the iteration
exactly when it was pending when the callback returned and its key is not the handed key; so
an entry the callback queued under another key stays, and one it re-queued under the handed
key is erased.  When no call was made during the callback, the erased entry is the handed
one. -/
theorem loop_erases_handed_key_only_when_callback_returns_true [LinearOrder Key]
    (q : TimedQueue Key Info) (now : SteadyClock) (sig : ExitingSignal)
    (onElementExpired : ExpiredCallback Key Info) (key : Key) (info : Info)
    (h : loopCheck q now sig = .callback key info) :
    ((onElementExpired key info).2 = false →
      loopIteration q now sig onElementExpired = runCalls (onElementExpired key info).1 q) ∧
    ((onElementExpired key info).2 = true →
      (loopIteration q now sig onElementExpired).m_stop
        = (runCalls (onElementExpired key info).1 q).m_stop ∧
      ∀ e : Element Key Info, e ∈ (loopIteration q now sig onElementExpired).m_list.elements ↔
        (e ∈ (runCalls (onElementExpired key info).1 q).m_list.elements ∧ e.key ≠ key)) ∧
    (q.m_list.WellFormed → (onElementExpired key info).1 = [] →
      (onElementExpired key info).2 = true →
      ∃ first, first.key = key ∧ first.value = info ∧
        q.m_list.elements = first :: (loopIteration q now sig onElementExpired).m_list.elements)
    := by
  refine ⟨?_, ?_, ?_⟩
  · intro hr
    simp [loopIteration, h, hr]
  · intro hr
    simp only [loopIteration, h, hr, if_true, true_and]
    intro e
    exact OrderedUniqueList.mem_erase _ key e
  · intro hwf hcalls hr
    obtain ⟨_, _, first, rest, hl, _, hk, hv⟩ := (loopCheck_callback_iff q now sig key info).mp h
    refine ⟨first, hk, hv, ?_⟩
    simp only [loopIteration, h, hr, hcalls, if_true, runCalls, List.foldl_nil,
      OrderedUniqueList.erase]
    rw [hl]
    have hn := hwf.2
    rw [hl] at hn
    simp only [List.map_cons, List.nodup_cons, List.mem_map, not_exists, not_and] at hn
    have hrest : rest.filter (fun e => !decide (e.key = key)) = rest := by
      rw [List.filter_eq_self]
      intro e he
      have := hn.1 e he
      simpa [hk] using this
    simp [List.filter_cons, hk, hrest]

theorem loop_erases_handed_key_only_when_callback_returns_true_witness :
    (loopIteration (⟨⟨[⟨5, 1, "a"⟩, ⟨7, 2, "b"⟩]⟩, false⟩ : TimedQueue Nat String) 10 ⟨4⟩
      (fun _ _ => ([Call.queue false 10 3 100 "c" true], false))) =
    runCalls [Call.queue false 10 3 100 "c" true]
      (⟨⟨[⟨5, 1, "a"⟩, ⟨7, 2, "b"⟩]⟩, false⟩ : TimedQueue Nat String) :=
  (loop_erases_handed_key_only_when_callback_returns_true
    (⟨⟨[⟨5, 1, "a"⟩, ⟨7, 2, "b"⟩]⟩, false⟩ : TimedQueue Nat String) 10 ⟨4⟩
    (fun _ _ => ([Call.queue false 10 3 100 "c" true], false)) 1 "a" (by decide)).1 rfl

end TimedQueue

namespace BusyRetryConfig

variable {D : Type}

theorem get_assign [Zero D] (w : WaitedTimes D) (path : String) (value : D) :
    (w.assign path value).get path = value := by
  simp [WaitedTimes.get, WaitedTimes.assign]

theorem assign_of_ne (w : WaitedTimes D) (path p : String) (value : D) (h : p ≠ path) :
    (w.assign path value) p = w p := by
  simp [WaitedTimes.assign, h]

/-- C5: whenever the remaining budget is not positive, or no handle is stepping when the wait
would start, `onBusy` returns false without blocking on the condition variable; the waiting
count and the stepping count are what they were before the call, and `waitedTimes[path]` is 0
at retry count 0 and unchanged otherwise, the entries of other paths being untouched. -/
theorem onBusy_aborts_without_blocking [Zero D] [Add D] [Sub D] [LT D]
    [∀ a b : D, Decidable (a < b)] (consts : CoreConst D) (c : BusyRetryConfig)
    (waitedTimes : WaitedTimes D) (isMainThread : Bool) (path : String) (numberOfTimes : Int)
    (wait : WaitOutcome D)
    (h : ¬ 0 < remainingTime consts waitedTimes isMainThread path numberOfTimes ∨
      c.m_numberOfSteppingHandles ≤ 0) :
    (onBusy consts c waitedTimes isMainThread path numberOfTimes wait).retry = false ∧
    (onBusy consts c waitedTimes isMainThread path numberOfTimes wait).blocked = false ∧
    (onBusy consts c waitedTimes isMainThread path numberOfTimes wait).config = c ∧
    (onBusy consts c waitedTimes isMainThread path numberOfTimes wait).waitedTimes.get path
      = (if numberOfTimes = 0 then 0 else waitedTimes.get path) ∧
    (∀ p, p ≠ path →
      (onBusy consts c waitedTimes isMainThread path numberOfTimes wait).waitedTimes p
        = waitedTimes p) := by
  have hw : ∀ p, p ≠ path →
      (if numberOfTimes = 0 then waitedTimes.assign path 0
        else waitedTimes.assign path (waitedTimes.get path)) p = waitedTimes p := by
    intro p hp
    split_ifs <;> exact assign_of_ne _ _ _ _ hp
  have hg : (if numberOfTimes = 0 then waitedTimes.assign path 0
        else waitedTimes.assign path (waitedTimes.get path)).get path
      = (if numberOfTimes = 0 then 0 else waitedTimes.get path) := by
    split_ifs <;> exact get_assign _ _ _
  by_cases hrem : 0 < remainingTime consts waitedTimes isMainThread path numberOfTimes
  · have hstep : ¬ 0 < c.m_numberOfSteppingHandles := by
      rcases h with h | h
      · exact absurd hrem h
      · exact not_lt.mpr h
    obtain ⟨waiting, stepping⟩ := c
    simp only at hstep
    simp only [onBusy, hrem, if_true, hstep, decide_False, Bool.false_eq_true, if_false,
      reduceCtorEq, BusyRetryConfig.mk.injEq, and_true, true_and]
    exact ⟨by omega, hg, hw⟩
  · simp only [onBusy, hrem, if_false, true_and]
    exact ⟨hg, hw⟩

theorem onBusy_aborts_without_blocking_witness :
    (onBusy (⟨2, 10⟩ : CoreConst Int) ⟨0, 0⟩ (fun _ => none) true "db" 0
      ⟨CvStatus.no_timeout, 1⟩).retry = false ∧
    (onBusy (⟨2, 10⟩ : CoreConst Int) ⟨0, 0⟩ (fun _ => none) true "db" 0
      ⟨CvStatus.no_timeout, 1⟩).blocked = false :=
  ⟨(onBusy_aborts_without_blocking (⟨2, 10⟩ : CoreConst Int) ⟨0, 0⟩ (fun _ => none) true "db" 0
      ⟨CvStatus.no_timeout, 1⟩ (Or.inr (by decide))).1,
    (onBusy_aborts_without_blocking (⟨2, 10⟩ : CoreConst Int) ⟨0, 0⟩ (fun _ => none) true "db" 0
      ⟨CvStatus.no_timeout, 1⟩ (Or.inr (by decide))).2.1⟩

/-- C10: `handleDidStep` decreases the stepping count by exactly one, leaves the waiting count
unchanged, and calls `notify_all` exactly when the handle is not in a transaction and the
waiting count is greater than 0; `handleWillStep` increases the stepping count by exactly one,
leaves the waiting count unchanged and returns true; `handleWillStep` followed by
`handleDidStep` restores the counters. -/
theorem step_hooks_count_stepping_handles (c : BusyRetryConfig)
    (handleStatement : HandleStatement) (result : Bool) :
    (c.handleDidStep handleStatement result).1.m_numberOfSteppingHandles
      = c.m_numberOfSteppingHandles - 1 ∧
    (c.handleDidStep handleStatement result).1.m_numberOfWaitingHandles
      = c.m_numberOfWaitingHandles ∧
    ((c.handleDidStep handleStatement result).2 = true ↔
      (handleStatement.isInTransaction = false ∧ 0 < c.m_numberOfWaitingHandles)) ∧
    (c.handleWillStep handleStatement).1.m_numberOfSteppingHandles
      = c.m_numberOfSteppingHandles + 1 ∧
    (c.handleWillStep handleStatement).1.m_numberOfWaitingHandles
      = c.m_numberOfWaitingHandles ∧
    (c.handleWillStep handleStatement).2 = true ∧
    ((c.handleWillStep handleStatement).1.handleDidStep handleStatement result).1 = c := by
  obtain ⟨waiting, stepping⟩ := c
  obtain ⟨inTransaction⟩ := handleStatement
  cases inTransaction <;> simp [handleDidStep, handleWillStep]

end BusyRetryConfig

namespace DatabasePool

theorem get_of_absent (pool : DatabasePool) (path : String)
    (h : pool.m_databases path = none) : pool.get path = (pool, none) := by
  simp [get, h]

theorem get_of_present (pool : DatabasePool) (path : String) (r : ReferencedDatabase)
    (h : pool.m_databases path = some r) :
    pool.get path =
      (⟨fun p => if p = path then some ⟨r.database, r.reference + 1⟩ else pool.m_databases p,
          pool.m_event⟩,
        some r.database) := by
  simp [get, h]

/-- What holds of every state the threads reach from `Concurrent.initial pool constructed`
when the normalized path was absent from `pool`: either nothing was inserted yet and no thread
has returned, or exactly one object, number `constructed`, was constructed, inserted and
announced, and every thread that has returned holds a handle to it. -/
theorem step_invariant (normalize : String → String) (path : String) (pool : DatabasePool)
    (constructed : Nat) (habsent : pool.m_databases (normalize path) = none) (s : Concurrent)
    (i : Nat)
    (h : (s.process = ⟨pool, constructed⟩ ∧
          ∀ j, s.callers j = .start ∨ s.callers j = .missed) ∨
        (s.process.constructed = constructed + 1 ∧
          s.process.pool.m_event = pool.m_event ++ [constructed] ∧
          (∃ r, s.process.pool.m_databases (normalize path) = some r ∧
            r.database = constructed) ∧
          (∀ p, p ≠ normalize path → s.process.pool.m_databases p = pool.m_databases p) ∧
          ∀ j, s.callers j = .start ∨ s.callers j = .missed ∨
            s.callers j = .returned (some constructed))) :
    ((s.step normalize path i).process = ⟨pool, constructed⟩ ∧
        ∀ j, (s.step normalize path i).callers j = .start ∨
          (s.step normalize path i).callers j = .missed) ∨
      ((s.step normalize path i).process.constructed = constructed + 1 ∧
        (s.step normalize path i).process.pool.m_event = pool.m_event ++ [constructed] ∧
        (∃ r, (s.step normalize path i).process.pool.m_databases (normalize path) = some r ∧
          r.database = constructed) ∧
        (∀ p, p ≠ normalize path →
          (s.step normalize path i).process.pool.m_databases p = pool.m_databases p) ∧
        ∀ j, (s.step normalize path i).callers j = .start ∨
          (s.step normalize path i).callers j = .missed ∨
          (s.step normalize path i).callers j = .returned (some constructed)) := by
  obtain ⟨⟨spool, sconstructed⟩, callers⟩ := s
  rcases h with ⟨hp, hc⟩ | ⟨h1, h2, ⟨r, hr, hrd⟩, h4, hc⟩
  · simp only [Process.mk.injEq] at hp
    obtain ⟨rfl, rfl⟩ := hp
    dsimp only at hc
    cases hi : callers i with
    | start =>
      left
      simp only [Concurrent.step, hi, getOrCreateShared, get_of_absent _ _ habsent, true_and]
      intro j
      by_cases hj : j = i
      · simp [hj]
      · simpa [hj] using hc j
    | missed =>
      right
      simp only [Concurrent.step, hi, getOrCreateExclusive, get_of_absent _ _ habsent, add]
      refine ⟨trivial, trivial, ⟨⟨sconstructed, 1⟩, by simp, rfl⟩, ?_, ?_⟩
      · intro p hp
        simp [hp]
      · intro j
        by_cases hj : j = i
        · simp [hj]
        · rcases hc j with h | h <;> simp [hj, h]
    | returned d =>
      rcases hc i with h | h <;> rw [hi] at h <;> simp at h
  · dsimp only at h1 h2 hr h4 hc
    right
    cases hi : callers i with
    | start =>
      simp only [Concurrent.step, hi, getOrCreateShared, get_of_present _ _ r hr]
      refine ⟨h1, h2, ⟨⟨r.database, r.reference + 1⟩, by simp, hrd⟩, ?_, ?_⟩
      · intro p hp
        simp [hp, h4 p hp]
      · intro j
        by_cases hj : j = i
        · simp [hj, hrd]
        · simpa [hj] using hc j
    | missed =>
      simp only [Concurrent.step, hi, getOrCreateExclusive, get_of_present _ _ r hr]
      refine ⟨h1, h2, ⟨⟨r.database, r.reference + 1⟩, by simp, hrd⟩, ?_, ?_⟩
      · intro p hp
        simp [hp, h4 p hp]
      · intro j
        by_cases hj : j = i
        · simp [hj, hrd]
        · simpa [hj] using hc j
    | returned d =>
      simp only [Concurrent.step, hi]
      exact ⟨h1, h2, ⟨r, hr, hrd⟩, h4, hc⟩

theorem step_callers_of_ne (normalize : String → String) (path : String) (s : Concurrent)
    (i j : Nat) (h : j ≠ i) : (s.step normalize path i).callers j = s.callers j := by
  unfold Concurrent.step
  split
  · split <;> simp [h]
  · simp [h]
  · rfl

theorem step_returned (normalize : String → String) (path : String) (s : Concurrent)
    (i j : Nat) (d : RecyclableDatabase) (h : s.callers j = .returned d) :
    (s.step normalize path i).callers j = .returned d := by
  by_cases hj : j = i
  · subst hj
    unfold Concurrent.step
    split
    · rename_i hs
      rw [h] at hs
      cases hs
    · rename_i hs
      rw [h] at hs
      cases hs
    · exact h
  · rw [step_callers_of_ne normalize path s i j hj]
    exact h

theorem step_leaves_start (normalize : String → String) (path : String) (s : Concurrent)
    (i : Nat) : (s.step normalize path i).callers i ≠ .start := by
  unfold Concurrent.step
  split
  · split <;> simp
  · simp
  · rename_i d hs
    rw [hs]
    simp

theorem step_returns_of_not_start (normalize : String → String) (path : String)
    (s : Concurrent) (i : Nat) (h : s.callers i ≠ .start) :
    ∃ d, (s.step normalize path i).callers i = .returned d := by
  unfold Concurrent.step
  split
  · rename_i hs
    exact absurd hs h
  · exact ⟨(getOrCreateExclusive normalize s.process path).2, by simp⟩
  · rename_i d hs
    exact ⟨d, hs⟩

theorem run_returned (normalize : String → String) (path : String) (schedule : List Nat)
    (s : Concurrent) (j : Nat) (d : RecyclableDatabase) (h : s.callers j = .returned d) :
    (s.run normalize path schedule).callers j = .returned d := by
  induction schedule generalizing s with
  | nil => exact h
  | cons k rest ih => exact ih _ (step_returned normalize path s k j d h)

theorem run_returns_of_not_start (normalize : String → String) (path : String)
    (schedule : List Nat) (s : Concurrent) (i : Nat) (h : s.callers i ≠ .start)
    (hcount : 1 ≤ schedule.count i) :
    ∃ d, (s.run normalize path schedule).callers i = .returned d := by
  induction schedule generalizing s with
  | nil => simp at hcount
  | cons k rest ih =>
    by_cases hk : k = i
    · subst hk
      obtain ⟨d, hd⟩ := step_returns_of_not_start normalize path s k h
      exact ⟨d, run_returned normalize path rest _ k d hd⟩
    · apply ih
      · rw [step_callers_of_ne normalize path s k i (Ne.symm hk)]
        exact h
      · simpa [List.count_cons, hk] using hcount

theorem run_returns (normalize : String → String) (path : String) (schedule : List Nat)
    (s : Concurrent) (i : Nat) (hcount : 2 ≤ schedule.count i) :
    ∃ d, (s.run normalize path schedule).callers i = .returned d := by
  induction schedule generalizing s with
  | nil => simp at hcount
  | cons k rest ih =>
    by_cases hk : k = i
    · subst hk
      apply run_returns_of_not_start normalize path rest _ k (step_leaves_start normalize path s k)
      simp only [List.count_cons_self] at hcount
      omega
    · apply ih
      simpa [List.count_cons, hk] using hcount

theorem run_invariant (normalize : String → String) (path : String) (pool : DatabasePool)
    (constructed : Nat) (habsent : pool.m_databases (normalize path) = none)
    (schedule : List Nat) (s : Concurrent)
    (h : (s.process = ⟨pool, constructed⟩ ∧
          ∀ j, s.callers j = .start ∨ s.callers j = .missed) ∨
        (s.process.constructed = constructed + 1 ∧
          s.process.pool.m_event = pool.m_event ++ [constructed] ∧
          (∃ r, s.process.pool.m_databases (normalize path) = some r ∧
            r.database = constructed) ∧
          (∀ p, p ≠ normalize path → s.process.pool.m_databases p = pool.m_databases p) ∧
          ∀ j, s.callers j = .start ∨ s.callers j = .missed ∨
            s.callers j = .returned (some constructed))) :
    ((s.run normalize path schedule).process = ⟨pool, constructed⟩ ∧
        ∀ j, (s.run normalize path schedule).callers j = .start ∨
          (s.run normalize path schedule).callers j = .missed) ∨
      ((s.run normalize path schedule).process.constructed = constructed + 1 ∧
        (s.run normalize path schedule).process.pool.m_event = pool.m_event ++ [constructed] ∧
        (∃ r, (s.run normalize path schedule).process.pool.m_databases (normalize path)
            = some r ∧ r.database = constructed) ∧
        (∀ p, p ≠ normalize path →
          (s.run normalize path schedule).process.pool.m_databases p = pool.m_databases p) ∧
        ∀ j, (s.run normalize path schedule).callers j = .start ∨
          (s.run normalize path schedule).callers j = .missed ∨
          (s.run normalize path schedule).callers j = .returned (some constructed)) := by
  induction schedule generalizing s with
  | nil => exact h
  | cons k rest ih =>
    exact ih _ (step_invariant normalize path pool constructed habsent s k h)

/-- C7: the normalized path being absent from the pool, let any number of threads each call
`getOrCreate<T>(path)`, their lookups under the shared lock and their second lookups with
insertion under the exclusive lock running in any order.  In every state reached at most one
`T` object has been constructed and at most one creation event fired, and the entries of other
paths are untouched.  As soon as some thread has returned, exactly one object has been
constructed, it is the one inserted under the normalized path, the creation event has fired
exactly once, for that object, and the handle of every thread that has returned refers to it.
A thread that has run its two blocks has returned. -/
theorem getOrCreate_concurrent_calls_create_one_instance (normalize : String → String)
    (path : String) (pool : DatabasePool) (constructed : Nat) (schedule : List Nat)
    (habsent : pool.m_databases (normalize path) = none) :
    (((Concurrent.initial pool constructed).run normalize path schedule).process.constructed
        = constructed ∧
      ((Concurrent.initial pool constructed).run normalize path schedule).process.pool.m_event
        = pool.m_event ∨
      ((Concurrent.initial pool constructed).run normalize path schedule).process.constructed
        = constructed + 1 ∧
      ((Concurrent.initial pool constructed).run normalize path schedule).process.pool.m_event
        = pool.m_event ++ [constructed]) ∧
    (∀ p, p ≠ normalize path →
      ((Concurrent.initial pool constructed).run normalize path
        schedule).process.pool.m_databases p = pool.m_databases p) ∧
    (∀ i d, ((Concurrent.initial pool constructed).run normalize path schedule).callers i
        = .returned d →
      d = some constructed ∧
      ((Concurrent.initial pool constructed).run normalize path schedule).process.constructed
        = constructed + 1 ∧
      ((Concurrent.initial pool constructed).run normalize path schedule).process.pool.m_event
        = pool.m_event ++ [constructed] ∧
      ∃ r, ((Concurrent.initial pool constructed).run normalize path
          schedule).process.pool.m_databases (normalize path) = some r ∧
        r.database = constructed) ∧
    (∀ i, 2 ≤ schedule.count i →
      ∃ d, ((Concurrent.initial pool constructed).run normalize path schedule).callers i
        = .returned d) := by
  have hinv := run_invariant normalize path pool constructed habsent schedule
    (Concurrent.initial pool constructed) (Or.inl ⟨rfl, fun _ => Or.inl rfl⟩)
  refine ⟨?_, ?_, ?_, ?_⟩
  · rcases hinv with ⟨hp, _⟩ | ⟨h1, h2, _⟩
    · left
      rw [hp]
      exact ⟨rfl, rfl⟩
    · right
      exact ⟨h1, h2⟩
  · intro p hp
    rcases hinv with ⟨hq, _⟩ | ⟨_, _, _, h4, _⟩
    · rw [hq]
    · exact h4 p hp
  · intro i d hd
    rcases hinv with ⟨_, hc⟩ | ⟨h1, h2, h3, _, hc⟩
    · rcases hc i with h | h <;> rw [hd] at h <;> cases h
    · refine ⟨?_, h1, h2, h3⟩
      rcases hc i with h | h | h
      · rw [hd] at h
        cases h
      · rw [hd] at h
        cases h
      · rw [hd] at h
        exact Caller.returned.inj h
  · intro i hi
    exact run_returns normalize path schedule _ i hi

theorem getOrCreate_concurrent_calls_create_one_instance_witness :
    ((Concurrent.initial ⟨fun _ => none, []⟩ 0).run id "a.db" [0, 1, 1, 0, 2, 2]).callers 0
        = .returned (some 0) ∧
    ((Concurrent.initial ⟨fun _ => none, []⟩ 0).run id "a.db"
        [0, 1, 1, 0, 2, 2]).process.constructed = 0 + 1 ∧
    ((Concurrent.initial ⟨fun _ => none, []⟩ 0).run id "a.db"
        [0, 1, 1, 0, 2, 2]).process.pool.m_event = [] ++ [0] :=
  ⟨by decide,
    ((getOrCreate_concurrent_calls_create_one_instance id "a.db" ⟨fun _ => none, []⟩ 0
      [0, 1, 1, 0, 2, 2] rfl).2.2.1 0 (some 0) (by decide)).2.1,
    ((getOrCreate_concurrent_calls_create_one_instance id "a.db" ⟨fun _ => none, []⟩ 0
      [0, 1, 1, 0, 2, 2] rfl).2.2.1 0 (some 0) (by decide)).2.2.1⟩

end DatabasePool

end WCDB
